import Mathlib

/-!
Shallow embedding of the hotel reservation system
(`src/hotel_reservation/models.py` and `src/hotel_reservation/system.py`).

Strings are handled as `List Char`; the Python string operations used by the
source (`str.split`, `str.strip`, `re.sub`, `datetime.strptime`,
`datetime.weekday`) are modelled by executable Lean functions below, each
annotated with the source construct it embeds.
-/

namespace HotelRes

/-! ### Python string primitives -/

/-- The whitespace characters stripped by Python `str.strip()` (ASCII part). -/
def isPySpace (c : Char) : Bool :=
  c = ' ' || c = '\t' || c = '\n' || c = '\r' || c = '\x0b' || c = '\x0c'

/-- Drop leading Python whitespace. -/
def pyStripLeft (l : List Char) : List Char := l.dropWhile isPySpace

/-- Drop trailing Python whitespace. -/
def pyStripRight (l : List Char) : List Char := (l.reverse.dropWhile isPySpace).reverse

/-- Python `s.strip()`: drop leading and trailing whitespace. -/
def pyStrip (l : List Char) : List Char := pyStripRight (pyStripLeft l)

/-- Helper for `input_str.split(":", 1)`: split at the first colon.
`none` when no colon occurs (Python returns a 1-element list, which the
source rejects with the separator error). -/
def splitColonAux (acc : List Char) : List Char → Option (List Char × List Char)
  | [] => none
  | c :: rest => if c = ':' then some (acc.reverse, rest) else splitColonAux (c :: acc) rest

def splitColonOnce (l : List Char) : Option (List Char × List Char) :=
  splitColonAux [] l

/-- Helper for `dates_str.split(",")`: split on every comma, keeping empty
segments (Python `"".split(",") = [""]`). -/
def splitCommaAux (acc : List Char) : List Char → List (List Char)
  | [] => [acc.reverse]
  | c :: rest =>
    if c = ',' then acc.reverse :: splitCommaAux [] rest
    else splitCommaAux (c :: acc) rest

def splitComma (l : List Char) : List (List Char) :=
  splitCommaAux [] l

/-- Model of `re.sub(r"\([^)]*\)", "", s)`.
`skip = true` while inside a match, i.e. between a `(` that has a later `)`
and that first `)`.  A `(` with no later `)` cannot start a match and is
kept verbatim, exactly as the regex behaves. -/
def stripParensAux : Bool → List Char → List Char
  | _, [] => []
  | true, c :: rest => if c = ')' then stripParensAux false rest else stripParensAux true rest
  | false, c :: rest =>
    if c = '(' && rest.contains ')' then stripParensAux true rest
    else c :: stripParensAux false rest

def stripParens (l : List Char) : List Char := stripParensAux false l

/-! ### Calendar model (CPython `datetime`) -/

def digitVal (c : Char) : Nat := c.toNat - 48

/-- ASCII lower-casing, for the `re.IGNORECASE` month-abbreviation match. -/
def lowerChar (c : Char) : Char :=
  if 65 ≤ c.toNat && c.toNat ≤ 90 then Char.ofNat (c.toNat + 32) else c

/-- The `%b` month abbreviations Jan..Dec, matched case-insensitively. -/
def monthOfAbbrev (c1 c2 c3 : Char) : Option Nat :=
  let s := [lowerChar c1, lowerChar c2, lowerChar c3]
  if s = ['j', 'a', 'n'] then some 1
  else if s = ['f', 'e', 'b'] then some 2
  else if s = ['m', 'a', 'r'] then some 3
  else if s = ['a', 'p', 'r'] then some 4
  else if s = ['m', 'a', 'y'] then some 5
  else if s = ['j', 'u', 'n'] then some 6
  else if s = ['j', 'u', 'l'] then some 7
  else if s = ['a', 'u', 'g'] then some 8
  else if s = ['s', 'e', 'p'] then some 9
  else if s = ['o', 'c', 't'] then some 10
  else if s = ['n', 'o', 'v'] then some 11
  else if s = ['d', 'e', 'c'] then some 12
  else none

/-- strptime `%d`: the regex alternation `3[01]|[12]\d|0[1-9]|[1-9]`.
Returns the parsed day and the remaining characters. -/
def parseDay : List Char → Option (Nat × List Char)
  | c1 :: c2 :: rest =>
    if c1 = '3' && (c2 = '0' || c2 = '1') then some (30 + digitVal c2, rest)
    else if (c1 = '1' || c1 = '2') && c2.isDigit then some (10 * digitVal c1 + digitVal c2, rest)
    else if c1 = '0' && (c2.isDigit && c2 ≠ '0') then some (digitVal c2, rest)
    else if c1.isDigit && c1 ≠ '0' then some (digitVal c1, c2 :: rest)
    else none
  | [c1] => if c1.isDigit && c1 ≠ '0' then some (digitVal c1, []) else none
  | [] => none

/-- strptime `%b`: a three-letter month abbreviation, case-insensitive. -/
def parseMonth : List Char → Option (Nat × List Char)
  | c1 :: c2 :: c3 :: rest => (monthOfAbbrev c1 c2 c3).map (fun m => (m, rest))
  | _ => none

/-- strptime `%Y`: exactly four digits. -/
def parseYear : List Char → Option (Nat × List Char)
  | a :: b :: c :: d :: rest =>
    if a.isDigit && b.isDigit && c.isDigit && d.isDigit then
      some (1000 * digitVal a + 100 * digitVal b + 10 * digitVal c + digitVal d, rest)
    else none
  | _ => none

def isLeap (y : Nat) : Bool := y % 4 = 0 && (y % 100 ≠ 0 || y % 400 = 0)

def daysInMonth (y m : Nat) : Nat :=
  match m with
  | 1 => 31 | 2 => if isLeap y then 29 else 28 | 3 => 31 | 4 => 30
  | 5 => 31 | 6 => 30 | 7 => 31 | 8 => 31
  | 9 => 30 | 10 => 31 | 11 => 30 | _ => 31

/-- A calendar date as held by a Python `datetime` (time fields unused). -/
structure Date where
  year : Nat
  month : Nat
  day : Nat
deriving DecidableEq, Repr

def Date.isValid (d : Date) : Bool :=
  1 ≤ d.year && d.year ≤ 9999 && 1 ≤ d.month && d.month ≤ 12 &&
    1 ≤ d.day && d.day ≤ daysInMonth d.year d.month

/-- `datetime.strptime(s, "%d%b%Y")`: day, month abbreviation, four-digit
year, whole string consumed, then the `datetime` constructor validates the
year range and the day against the month length. -/
def parseDMY (cs : List Char) : Option Date :=
  match parseDay cs with
  | none => none
  | some (d, r1) =>
    match parseMonth r1 with
    | none => none
    | some (m, r2) =>
      match parseYear r2 with
      | none => none
      | some (y, r3) =>
        if r3.isEmpty && 1 ≤ y && y ≤ 9999 && d ≤ daysInMonth y m then
          some ⟨y, m, d⟩
        else none

/-- CPython `_ymd2ord` helper: days in the years before `y`. -/
def daysBeforeYear (y : Nat) : Nat :=
  (y - 1) * 365 + (y - 1) / 4 - (y - 1) / 100 + (y - 1) / 400

/-- CPython `_days_before_month`. -/
def daysBeforeMonth (y m : Nat) : Nat :=
  (match m with
   | 1 => 0 | 2 => 31 | 3 => 59 | 4 => 90 | 5 => 120 | 6 => 151
   | 7 => 181 | 8 => 212 | 9 => 243 | 10 => 273 | 11 => 304 | _ => 334) +
  (if 3 ≤ m && isLeap y then 1 else 0)

/-- Proleptic Gregorian ordinal: 0001-01-01 has ordinal 1. -/
def Date.toOrdinal (d : Date) : Nat :=
  daysBeforeYear d.year + daysBeforeMonth d.year d.month + d.day

/-- `datetime.weekday()`: 0 = Monday .. 6 = Sunday. -/
def Date.weekday (d : Date) : Nat := (d.toOrdinal + 6) % 7

/-! ### Data model (`models.py`) -/

inductive CustomerType where
  | REGULAR
  | REWARDS
deriving DecidableEq, Repr

inductive DayType where
  | WEEKDAY
  | WEEKEND
deriving DecidableEq, Repr

structure Hotel where
  name : String
  rating : Nat
  weekday_regular : Nat
  weekday_rewards : Nat
  weekend_regular : Nat
  weekend_rewards : Nat
deriving DecidableEq, Repr

/-- `Hotel.get_rate` from `models.py`. -/
def Hotel.get_rate (h : Hotel) (c : CustomerType) (d : DayType) : Nat :=
  match c with
  | .REGULAR => match d with | .WEEKDAY => h.weekday_regular | .WEEKEND => h.weekend_regular
  | .REWARDS => match d with | .WEEKDAY => h.weekday_rewards | .WEEKEND => h.weekend_rewards

/-! ### Parsing (`system.py` `parse_input`) -/

/-- The `ValueError` kinds raised inside `parse_input`, with their
diagnostic payloads. -/
inductive ParseError where
  | malformedRequest
  | unknownCustomerTier (tier : String)
  | invalidDateFormat (token : String)
  | emptyDateList
deriving DecidableEq, Repr

/-- The human-readable message attached to each `ValueError` in the source
(quotation marks around tier names omitted). -/
def renderError : ParseError → String
  | .malformedRequest => "Input must contain : separator"
  | .unknownCustomerTier t => "Invalid customer type: " ++ t ++ ". Must be Regular or Rewards"
  | .invalidDateFormat t => "Invalid date format: " ++ t ++ ". Expected format: DDMmmYYYY"
  | .emptyDateList => "At least one date must be provided"

/-- `CustomerType(customer_str)`: exact, case-sensitive match on the enum
values. -/
def parseCustomerType (cs : List Char) : Option CustomerType :=
  if cs = "Regular".toList then some .REGULAR
  else if cs = "Rewards".toList then some .REWARDS
  else none

/-- The per-token cleaning in the date loop:
`re.sub(r"\([^)]*\)", "", date_str).strip()`. -/
def cleanToken (t : List Char) : List Char := pyStrip (stripParens t)

/-- The date loop of `parse_input`: each (already stripped) token is
cleaned and parsed; the first failure aborts with `InvalidDateFormat`
carrying the pre-cleaning token. -/
def parseDates : List (List Char) → Except ParseError (List Date)
  | [] => .ok []
  | t :: ts =>
    match parseDMY (cleanToken t) with
    | none => .error (.invalidDateFormat (String.mk t))
    | some d =>
      match parseDates ts with
      | .error e => .error e
      | .ok ds => .ok (d :: ds)

/-- `HotelReservationSystem.parse_input`. -/
def parse_input (s : String) : Except ParseError (CustomerType × List Date) :=
  match splitColonOnce s.toList with
  | none => .error .malformedRequest
  | some (a, b) =>
    let customer_str := pyStrip a
    let dates_str := pyStrip b
    match parseCustomerType customer_str with
    | none => .error (.unknownCustomerTier (String.mk customer_str))
    | some ct =>
      let date_strings := (splitComma dates_str).map pyStrip
      match parseDates date_strings with
      | .error e => .error e
      | .ok dates => if dates = [] then .error .emptyDateList else .ok (ct, dates)

/-! ### Evaluation (`system.py`) -/

/-- The fixed Miami catalog built in `HotelReservationSystem.__init__`. -/
def hotels : List Hotel :=
  [⟨"Lakewood", 3, 110, 80, 90, 80⟩,
   ⟨"Bridgewood", 4, 160, 110, 60, 50⟩,
   ⟨"Ridgewood", 5, 220, 100, 150, 40⟩]

/-- `get_day_type`: `weekday() >= 5` means weekend. -/
def get_day_type (d : Date) : DayType :=
  if 5 ≤ d.weekday then .WEEKEND else .WEEKDAY

/-- `calculate_total_cost`: fold of the per-night rates. -/
def calculate_total_cost (h : Hotel) (ct : CustomerType) (dates : List Date) : Nat :=
  dates.foldl (fun total d => total + h.get_rate ct (get_day_type d)) 0

/-- Stable insertion: `x` goes before the first element it is `le`-below,
and after earlier-listed elements with an equal key, matching the
stability of Python `list.sort`. -/
def insertLe (le : α → α → Bool) (x : α) : List α → List α
  | [] => [x]
  | y :: ys => if le x y then x :: y :: ys else y :: insertLe le x ys

/-- Stable sort modelling `list.sort(key=...)`. -/
def isortLe (le : α → α → Bool) : List α → List α
  | [] => []
  | x :: xs => insertLe le x (isortLe le xs)

/-- The sort key of `find_cheapest_hotel`:
`(total_cost, -rating)` compared lexicographically, as a boolean `≤`. -/
def costKeyLe (p q : Hotel × Nat) : Bool :=
  p.2 < q.2 || (p.2 = q.2 && q.1.rating ≤ p.1.rating)

/-- Errors observable from the two public operations: a `ValueError` from
parsing, or the `IndexError` Python would raise if `hotel_costs[0]` were
taken on an empty list. -/
inductive SysError where
  | parseFailure (e : ParseError)
  | indexError
deriving DecidableEq, Repr

/-- The `hotel_costs` list of `find_cheapest_hotel`: each catalog hotel
paired with its total cost for the request. -/
def costedCatalog (ct : CustomerType) (dates : List Date) : List (Hotel × Nat) :=
  hotels.map fun h => (h, calculate_total_cost h ct dates)

/-- The selection stage of `find_cheapest_hotel`: stable-sort the costed
catalog by `(cost, -rating)` and take the first hotel's name. -/
def find_cheapest_core (ct : CustomerType) (dates : List Date) : Option String :=
  match isortLe costKeyLe (costedCatalog ct dates) with
  | [] => none
  | (h, _) :: _ => some h.name

/-- `HotelReservationSystem.find_cheapest_hotel`. -/
def find_cheapest_hotel (s : String) : Except SysError String :=
  match parse_input s with
  | .error e => .error (.parseFailure e)
  | .ok (ct, dates) =>
    match find_cheapest_core ct dates with
    | none => .error .indexError
    | some n => .ok n

/-- One entry of the `daily_costs` list in `get_detailed_analysis`. -/
structure DailyCost where
  date : Date
  day_type : DayType
  rate : Nat
deriving DecidableEq, Repr

/-- One entry of the `hotels` list in `get_detailed_analysis`. -/
structure HotelAnalysis where
  name : String
  rating : Nat
  total_cost : Nat
  daily_costs : List DailyCost
deriving DecidableEq, Repr

/-- The dictionary returned by `get_detailed_analysis`. -/
structure Analysis where
  customer_type : CustomerType
  dates : List Date
  hotelEntries : List HotelAnalysis
  cheapest_hotel : String
deriving DecidableEq, Repr

/-- The per-hotel record built in the loop of `get_detailed_analysis`. -/
def mkAnalysisEntry (ct : CustomerType) (dates : List Date) (h : Hotel) : HotelAnalysis :=
  { name := h.name
    rating := h.rating
    total_cost := calculate_total_cost h ct dates
    daily_costs := dates.map fun d => ⟨d, get_day_type d, h.get_rate ct (get_day_type d)⟩ }

/-- The sort key of `get_detailed_analysis`: `(total_cost, -rating)`. -/
def analysisKeyLe (p q : HotelAnalysis) : Bool :=
  p.total_cost < q.total_cost || (p.total_cost = q.total_cost && q.rating ≤ p.rating)

/-- `HotelReservationSystem.get_detailed_analysis`. -/
def get_detailed_analysis (s : String) : Except SysError Analysis :=
  match parse_input s with
  | .error e => .error (.parseFailure e)
  | .ok (ct, dates) =>
    match isortLe analysisKeyLe (hotels.map (mkAnalysisEntry ct dates)) with
    | [] => .error .indexError
    | a :: rest =>
      .ok { customer_type := ct
            dates := dates
            hotelEntries := a :: rest
            cheapest_hotel := a.name }

/-! ### Auxiliary definitions used by the verification -/

/-- First element of the stable sort: keeps the earlier element on an
`le`-tie, mirroring `insertLe`. -/
def hminLe (le : α → α → Bool) : List α → Option α
  | [] => none
  | x :: xs =>
    match hminLe le xs with
    | none => some x
    | some m => some (if le x m then x else m)

/-- Apply `f` to the first element of a list. -/
def applyFirst (f : α → α) : List α → List α
  | [] => []
  | t :: ts => f t :: ts

/-- Apply `f` to the last element of a list. -/
def applyLast (f : α → α) : List α → List α
  | [] => []
  | [t] => [f t]
  | t :: ts => t :: applyLast f ts

/-- Apply `f` to the element at index `i` (no-op out of range). -/
def applyAt (f : α → α) : Nat → List α → List α
  | _, [] => []
  | 0, t :: ts => f t :: ts
  | Nat.succ i, t :: ts => t :: applyAt f i ts

/-- Inverse of `splitComma`: rejoin segments with commas. -/
def joinComma : List (List Char) → List Char
  | [] => []
  | [t] => t
  | t :: ts => t ++ ',' :: joinComma ts

/-- A parenthesized annotation with body `w`. -/
def annot (w : List Char) : List Char := '(' :: (w ++ [')'])

/-- The request string with `"(" ++ w ++ ")"` appended to the `i`-th
comma-separated date token (the string is left unchanged when it has no
colon). -/
def annotateAt (s : String) (i : Nat) (w : List Char) : String :=
  match splitColonOnce s.toList with
  | none => s
  | some (a, b) =>
    String.mk (a ++ ':' :: joinComma (applyAt (· ++ annot w) i (splitComma b)))

/-- All characters are Python whitespace. -/
def allWs (l : List Char) : Prop := ∀ c ∈ l, isPySpace c = true

/-- The date tokens `parse_input` extracts from the segment after the
colon: strip the segment, split on commas, strip each token. -/
def tokensOf (b : List Char) : List (List Char) :=
  (splitComma (pyStrip b)).map pyStrip

/-- Modelled from the spec: the selector's strict ordering on indexed
costed hotels — total cost ascending, then star rating descending, and
for full ties the catalog's original insertion order (smaller index
first).  The argument pairs are `(catalog index, (hotel, total cost))`. -/
def specPrecedes (p q : Nat × (Hotel × Nat)) : Prop :=
  p.2.2 < q.2.2 ∨
    (p.2.2 = q.2.2 ∧ q.2.1.rating < p.2.1.rating) ∨
    (p.2.2 = q.2.2 ∧ p.2.1.rating = q.2.1.rating ∧ p.1 < q.1)

/-- The `HotelAnalysis` record determined by a costed pair; composing it
with the costed catalog yields exactly the entries built by
`get_detailed_analysis`. -/
def analysisOfPair (ct : CustomerType) (dates : List Date) (p : Hotel × Nat) : HotelAnalysis :=
  { name := p.1.name
    rating := p.1.rating
    total_cost := p.2
    daily_costs := dates.map fun d => ⟨d, get_day_type d, p.1.get_rate ct (get_day_type d)⟩ }

/-! ## Basic lemmas -/

theorem splitCommaAux_ne_nil (acc l : List Char) : splitCommaAux acc l ≠ [] := by
  induction l generalizing acc with
  | nil => simp [splitCommaAux]
  | cons c rest ih =>
    simp only [splitCommaAux]
    split
    · simp
    · exact ih _

theorem splitComma_ne_nil (l : List Char) : splitComma l ≠ [] :=
  splitCommaAux_ne_nil [] l

theorem parseDates_error_shape {ts : List (List Char)} {e : ParseError}
    (h : parseDates ts = .error e) :
    ∃ t ∈ ts, parseDMY (cleanToken t) = none ∧ e = ParseError.invalidDateFormat (String.mk t) := by
  induction ts with
  | nil => simp [parseDates] at h
  | cons t ts ih =>
    simp only [parseDates] at h
    split at h
    · rename_i hp
      simp only [Except.error.injEq] at h
      exact ⟨t, by simp, hp, h.symm⟩
    · split at h
      · rename_i hts
        simp only [Except.error.injEq] at h
        obtain ⟨t0, ht0, hfail, he⟩ := ih (by rw [hts, h])
        exact ⟨t0, by simp [ht0], hfail, he⟩
      · exact absurd h (by simp)

theorem parseDates_ok_nonempty {t : List Char} {ts : List (List Char)} {ds : List Date}
    (h : parseDates (t :: ts) = .ok ds) : ds ≠ [] := by
  simp only [parseDates] at h
  split at h
  · exact absurd h (by simp)
  · split at h
    · exact absurd h (by simp)
    · cases h
      simp

theorem parseDates_ok_mem {ts : List (List Char)} {ds : List Date}
    (h : parseDates ts = .ok ds) : ∀ t ∈ ts, ∃ d, parseDMY (cleanToken t) = some d := by
  induction ts generalizing ds with
  | nil => intro t ht; simp at ht
  | cons t0 ts ih =>
    intro t ht
    simp only [parseDates] at h
    split at h
    · exact absurd h (by simp)
    · rename_i d hp
      split at h
      · exact absurd h (by simp)
      · rename_i ds0 hts
        rcases List.mem_cons.mp ht with rfl | hmem
        · exact ⟨d, hp⟩
        · exact ih hts t hmem

theorem parse_input_ne_emptyDateList (s : String) :
    parse_input s ≠ .error ParseError.emptyDateList := by
  unfold parse_input
  cases hc : splitColonOnce s.toList with
  | none => simp
  | some ab =>
    obtain ⟨a, b⟩ := ab
    cases hct : parseCustomerType (pyStrip a) with
    | none => simp [hct]
    | some ct =>
      cases hpd : parseDates ((splitComma (pyStrip b)).map pyStrip) with
      | error e =>
        obtain ⟨t, _, _, rfl⟩ := parseDates_error_shape hpd
        simp [hct, hpd]
      | ok ds =>
        have hne : ds ≠ [] := by
          cases hsp : (splitComma (pyStrip b)).map pyStrip with
          | nil => exact absurd (List.map_eq_nil_iff.mp hsp) (splitComma_ne_nil _)
          | cons t ts => rw [hsp] at hpd; exact parseDates_ok_nonempty hpd
        simp [hct, hpd, hne]

/-! ## Claims -/

/-- C2 (code bug): for the input `"Regular: "` the date segment splits into
the single empty token, which fails `strptime`, so the code raises the
`InvalidDateFormat` error — not `EmptyDateList` as the spec and the
repository's own test (`test_parse_input_empty_dates`) require.  Moreover
the `EmptyDateList` branch is unreachable for every input. -/
theorem claim_C2 :
    parse_input "Regular: " = .error (ParseError.invalidDateFormat "") ∧
      ∀ s : String, parse_input s ≠ .error ParseError.emptyDateList :=
  ⟨rfl, parse_input_ne_emptyDateList⟩

/-- C3: the four reference scenarios of the spec, evaluated end-to-end
through parsing, day classification, cost summation and selection on the
fixed catalog. -/
theorem claim_C3 :
    find_cheapest_hotel "Regular: 16Mar2009(mon), 17Mar2009(tues), 18Mar2009(wed)"
        = .ok "Lakewood" ∧
      find_cheapest_hotel "Regular: 20Mar2009(fri), 21Mar2009(sat), 22Mar2009(sun)"
        = .ok "Bridgewood" ∧
      find_cheapest_hotel "Rewards: 26Mar2009(thur), 27Mar2009(fri), 28Mar2009(sat)"
        = .ok "Ridgewood" ∧
      find_cheapest_hotel "Rewards: 21Mar2009(sat)" = .ok "Ridgewood" :=
  ⟨rfl, rfl, rfl, rfl⟩

theorem calculate_total_cost_eq_sum (h : Hotel) (ct : CustomerType) (dates : List Date) :
    calculate_total_cost h ct dates
      = (dates.map fun d => h.get_rate ct (get_day_type d)).sum := by
  suffices haux : ∀ (l : List Date) (n : Nat),
      l.foldl (fun total d => total + h.get_rate ct (get_day_type d)) n
        = n + (l.map fun d => h.get_rate ct (get_day_type d)).sum by
    simpa [calculate_total_cost] using haux dates 0
  intro l
  induction l with
  | nil => simp
  | cons d l ih => intro n; simp [List.foldl_cons, ih]; omega

/-- C5: `calculate_total_cost` is exactly the sum of the per-night rates
looked up by (tier, day class), and the empty date list yields total 0
with an empty breakdown. -/
theorem claim_C5 (h : Hotel) (ct : CustomerType) (dates : List Date) :
    calculate_total_cost h ct dates
        = (dates.map fun d => h.get_rate ct (get_day_type d)).sum ∧
      calculate_total_cost h ct [] = 0 ∧
      (mkAnalysisEntry ct [] h).daily_costs = [] :=
  ⟨calculate_total_cost_eq_sum h ct dates, rfl, rfl⟩

/-- C6: the day classifier is total and returns `WEEKEND` exactly on
weekday numbers 5 (Saturday) and 6 (Sunday) of the proleptic Gregorian
day-of-week, and `WEEKDAY` exactly on Monday(0)–Friday(4). -/
theorem claim_C6 (d : Date) (hd : d.isValid = true) :
    (get_day_type d = DayType.WEEKEND ↔ (d.weekday = 5 ∨ d.weekday = 6)) ∧
      (get_day_type d = DayType.WEEKDAY ↔ d.weekday ≤ 4) := by
  have h7 : d.weekday < 7 := Nat.mod_lt _ (by norm_num)
  refine ⟨?_, ?_⟩ <;> by_cases h5 : 5 ≤ d.weekday <;>
    simp [get_day_type, h5] <;> omega

theorem claim_C6_witness :
    Date.isValid ⟨2009, 3, 21⟩ = true ∧
      (get_day_type ⟨2009, 3, 21⟩ = DayType.WEEKEND ↔
        (Date.weekday ⟨2009, 3, 21⟩ = 5 ∨ Date.weekday ⟨2009, 3, 21⟩ = 6)) :=
  ⟨by decide, (claim_C6 ⟨2009, 3, 21⟩ (by decide)).1⟩

theorem sum_map_const {l : List Date} {f : Date → Nat} {r : Nat}
    (h : ∀ d ∈ l, f d = r) : (l.map f).sum = l.length * r := by
  induction l with
  | nil => simp
  | cons d l ih =>
    simp only [List.map_cons, List.sum_cons, List.length_cons]
    rw [h d (by simp), ih (fun x hx => h x (by simp [hx]))]
    ring

/-- C7: on an all-weekday (resp. all-weekend) non-empty date list the total
cost is the number of dates times the tier's weekday (resp. weekend)
rate. -/
theorem claim_C7 (h : Hotel) (ct : CustomerType) (dates : List Date) (hne : dates ≠ []) :
    ((∀ d ∈ dates, get_day_type d = DayType.WEEKDAY) →
        calculate_total_cost h ct dates = dates.length * h.get_rate ct DayType.WEEKDAY) ∧
      ((∀ d ∈ dates, get_day_type d = DayType.WEEKEND) →
        calculate_total_cost h ct dates = dates.length * h.get_rate ct DayType.WEEKEND) := by
  constructor <;> intro hall <;> rw [calculate_total_cost_eq_sum] <;>
    exact sum_map_const (fun d hd => by rw [hall d hd])

theorem claim_C7_witness :
    calculate_total_cost ⟨"Lakewood", 3, 110, 80, 90, 80⟩ CustomerType.REGULAR
        [⟨2009, 3, 16⟩, ⟨2009, 3, 17⟩] = 2 * 110 ∧
      calculate_total_cost ⟨"Lakewood", 3, 110, 80, 90, 80⟩ CustomerType.REGULAR
        [⟨2009, 3, 21⟩] = 1 * 90 :=
  ⟨(claim_C7 _ _ _ (by simp)).1 (by decide), (claim_C7 _ _ _ (by simp)).2 (by decide)⟩

/-! ## Sorting lemmas -/

theorem isortLe_head? (le : α → α → Bool) (l : List α) :
    (isortLe le l).head? = hminLe le l := by
  induction l with
  | nil => rfl
  | cons x xs ih =>
    simp only [isortLe, hminLe]
    cases hxs : isortLe le xs with
    | nil =>
      rw [hxs] at ih
      rw [← ih]
      simp [insertLe]
    | cons y ys =>
      rw [hxs] at ih
      rw [← ih]
      simp only [insertLe, List.head?_cons]
      by_cases hxy : le x y <;> simp [hxy]

theorem hminLe_mem {le : α → α → Bool} {l : List α} {m : α}
    (h : hminLe le l = some m) : m ∈ l := by
  induction l generalizing m with
  | nil => simp [hminLe] at h
  | cons x xs ih =>
    simp only [hminLe] at h
    cases hxs : hminLe le xs with
    | none => rw [hxs] at h; simp at h; simp [h]
    | some m0 =>
      rw [hxs] at h
      simp only [Option.some.injEq] at h
      by_cases hc : le x m0
      · simp [hc] at h; simp [h]
      · simp [hc] at h; right; rw [← h]; exact ih hxs

theorem hmin3 (le : α → α → Bool) (x y z : α) :
    hminLe le [x, y, z]
      = some (if le x (if le y z then y else z) then x else if le y z then y else z) := rfl

theorem find_cheapest_core_eq (ct : CustomerType) (dates : List Date) :
    find_cheapest_core ct dates
      = (hminLe costKeyLe (costedCatalog ct dates)).map fun p => p.1.name := by
  unfold find_cheapest_core
  cases hs : isortLe costKeyLe (costedCatalog ct dates) with
  | nil => rw [← isortLe_head? costKeyLe, hs]; rfl
  | cons p rest => rw [← isortLe_head? costKeyLe, hs]; rfl

theorem insertLe_map (f : α → β) (le1 : α → α → Bool) (le2 : β → β → Bool)
    (hle : ∀ a b, le2 (f a) (f b) = le1 a b) (x : α) (l : List α) :
    insertLe le2 (f x) (l.map f) = (insertLe le1 x l).map f := by
  induction l with
  | nil => rfl
  | cons y ys ih =>
    simp only [List.map_cons, insertLe, hle]
    by_cases hc : le1 x y <;> simp [hc, ih]

theorem isortLe_map (f : α → β) (le1 : α → α → Bool) (le2 : β → β → Bool)
    (hle : ∀ a b, le2 (f a) (f b) = le1 a b) (l : List α) :
    isortLe le2 (l.map f) = (isortLe le1 l).map f := by
  induction l with
  | nil => rfl
  | cons x xs ih => simp only [List.map_cons, isortLe, ih, insertLe_map f le1 le2 hle]

/-! ## Claims about the selector -/

/-- C1: for every tier and non-empty date list the selector returns the
name of the unique hotel that is first in the spec's order: total cost
ascending, ties by higher rating, remaining ties by catalog insertion
order. -/
theorem claim_C1 (ct : CustomerType) (dates : List Date) (hne : dates ≠ []) :
    ∃ p ∈ (costedCatalog ct dates).enum,
      find_cheapest_core ct dates = some p.2.1.name ∧
        ∀ q ∈ (costedCatalog ct dates).enum, q ≠ p → specPrecedes p q := by
  rw [find_cheapest_core_eq]
  have hcc : costedCatalog ct dates =
      [(⟨"Lakewood", 3, 110, 80, 90, 80⟩,
          calculate_total_cost ⟨"Lakewood", 3, 110, 80, 90, 80⟩ ct dates),
        (⟨"Bridgewood", 4, 160, 110, 60, 50⟩,
          calculate_total_cost ⟨"Bridgewood", 4, 160, 110, 60, 50⟩ ct dates),
        (⟨"Ridgewood", 5, 220, 100, 150, 40⟩,
          calculate_total_cost ⟨"Ridgewood", 5, 220, 100, 150, 40⟩ ct dates)] := rfl
  rw [hcc]
  generalize calculate_total_cost ⟨"Lakewood", 3, 110, 80, 90, 80⟩ ct dates = a
  generalize calculate_total_cost ⟨"Bridgewood", 4, 160, 110, 60, 50⟩ ct dates = b
  generalize calculate_total_cost ⟨"Ridgewood", 5, 220, 100, 150, 40⟩ ct dates = c
  have k1 : costKeyLe (⟨"Bridgewood", 4, 160, 110, 60, 50⟩, b)
      (⟨"Ridgewood", 5, 220, 100, 150, 40⟩, c) = decide (b < c) := by
    simp [costKeyLe]
  have k2 : costKeyLe (⟨"Lakewood", 3, 110, 80, 90, 80⟩, a)
      (⟨"Bridgewood", 4, 160, 110, 60, 50⟩, b) = decide (a < b) := by
    simp [costKeyLe]
  have k3 : costKeyLe (⟨"Lakewood", 3, 110, 80, 90, 80⟩, a)
      (⟨"Ridgewood", 5, 220, 100, 150, 40⟩, c) = decide (a < c) := by
    simp [costKeyLe]
  rw [hmin3]
  have henum : List.enum
      [((⟨"Lakewood", 3, 110, 80, 90, 80⟩ : Hotel), a),
        (⟨"Bridgewood", 4, 160, 110, 60, 50⟩, b),
        (⟨"Ridgewood", 5, 220, 100, 150, 40⟩, c)]
      = [(0, (⟨"Lakewood", 3, 110, 80, 90, 80⟩ : Hotel), a),
          (1, (⟨"Bridgewood", 4, 160, 110, 60, 50⟩ : Hotel), b),
          (2, (⟨"Ridgewood", 5, 220, 100, 150, 40⟩ : Hotel), c)] := rfl
  rw [henum]
  by_cases hbc : b < c
  · have e1 : (if costKeyLe (⟨"Bridgewood", 4, 160, 110, 60, 50⟩, b)
        (⟨"Ridgewood", 5, 220, 100, 150, 40⟩, c)
        then ((⟨"Bridgewood", 4, 160, 110, 60, 50⟩ : Hotel), b)
        else (⟨"Ridgewood", 5, 220, 100, 150, 40⟩, c))
        = (⟨"Bridgewood", 4, 160, 110, 60, 50⟩, b) := by rw [k1]; simp [hbc]
    rw [e1]
    by_cases hab : a < b
    · have e2 : (if costKeyLe (⟨"Lakewood", 3, 110, 80, 90, 80⟩, a)
          (⟨"Bridgewood", 4, 160, 110, 60, 50⟩, b)
          then ((⟨"Lakewood", 3, 110, 80, 90, 80⟩ : Hotel), a)
          else (⟨"Bridgewood", 4, 160, 110, 60, 50⟩, b))
          = (⟨"Lakewood", 3, 110, 80, 90, 80⟩, a) := by rw [k2]; simp [hab]
      rw [e2]
      refine ⟨(0, ⟨"Lakewood", 3, 110, 80, 90, 80⟩, a), by simp, rfl, ?_⟩
      rintro q hq hqp
      simp only [List.mem_cons, List.not_mem_nil, or_false] at hq
      rcases hq with rfl | rfl | rfl
      · exact absurd rfl hqp
      · simp only [specPrecedes]; omega
      · simp only [specPrecedes]; omega
    · have e2 : (if costKeyLe (⟨"Lakewood", 3, 110, 80, 90, 80⟩, a)
          (⟨"Bridgewood", 4, 160, 110, 60, 50⟩, b)
          then ((⟨"Lakewood", 3, 110, 80, 90, 80⟩ : Hotel), a)
          else (⟨"Bridgewood", 4, 160, 110, 60, 50⟩, b))
          = (⟨"Bridgewood", 4, 160, 110, 60, 50⟩, b) := by rw [k2]; simp [hab]
      rw [e2]
      refine ⟨(1, ⟨"Bridgewood", 4, 160, 110, 60, 50⟩, b), by simp, rfl, ?_⟩
      rintro q hq hqp
      simp only [List.mem_cons, List.not_mem_nil, or_false] at hq
      rcases hq with rfl | rfl | rfl
      · simp only [specPrecedes]; omega
      · exact absurd rfl hqp
      · simp only [specPrecedes]; omega
  · have e1 : (if costKeyLe (⟨"Bridgewood", 4, 160, 110, 60, 50⟩, b)
        (⟨"Ridgewood", 5, 220, 100, 150, 40⟩, c)
        then ((⟨"Bridgewood", 4, 160, 110, 60, 50⟩ : Hotel), b)
        else (⟨"Ridgewood", 5, 220, 100, 150, 40⟩, c))
        = (⟨"Ridgewood", 5, 220, 100, 150, 40⟩, c) := by rw [k1]; simp [hbc]
    rw [e1]
    by_cases hac : a < c
    · have e2 : (if costKeyLe (⟨"Lakewood", 3, 110, 80, 90, 80⟩, a)
          (⟨"Ridgewood", 5, 220, 100, 150, 40⟩, c)
          then ((⟨"Lakewood", 3, 110, 80, 90, 80⟩ : Hotel), a)
          else (⟨"Ridgewood", 5, 220, 100, 150, 40⟩, c))
          = (⟨"Lakewood", 3, 110, 80, 90, 80⟩, a) := by rw [k3]; simp [hac]
      rw [e2]
      refine ⟨(0, ⟨"Lakewood", 3, 110, 80, 90, 80⟩, a), by simp, rfl, ?_⟩
      rintro q hq hqp
      simp only [List.mem_cons, List.not_mem_nil, or_false] at hq
      rcases hq with rfl | rfl | rfl
      · exact absurd rfl hqp
      · simp only [specPrecedes]; omega
      · simp only [specPrecedes]; omega
    · have e2 : (if costKeyLe (⟨"Lakewood", 3, 110, 80, 90, 80⟩, a)
          (⟨"Ridgewood", 5, 220, 100, 150, 40⟩, c)
          then ((⟨"Lakewood", 3, 110, 80, 90, 80⟩ : Hotel), a)
          else (⟨"Ridgewood", 5, 220, 100, 150, 40⟩, c))
          = (⟨"Ridgewood", 5, 220, 100, 150, 40⟩, c) := by rw [k3]; simp [hac]
      rw [e2]
      refine ⟨(2, ⟨"Ridgewood", 5, 220, 100, 150, 40⟩, c), by simp, rfl, ?_⟩
      rintro q hq hqp
      simp only [List.mem_cons, List.not_mem_nil, or_false] at hq
      rcases hq with rfl | rfl | rfl
      · simp only [specPrecedes]; omega
      · simp only [specPrecedes]; omega
      · exact absurd rfl hqp

theorem claim_C1_witness :
    ∃ p ∈ (costedCatalog CustomerType.REGULAR [⟨2009, 3, 16⟩]).enum,
      find_cheapest_core CustomerType.REGULAR [⟨2009, 3, 16⟩] = some p.2.1.name ∧
        ∀ q ∈ (costedCatalog CustomerType.REGULAR [⟨2009, 3, 16⟩]).enum,
          q ≠ p → specPrecedes p q :=
  claim_C1 CustomerType.REGULAR [⟨2009, 3, 16⟩] (by simp)

/-- C4: whenever parsing succeeds, evaluation cannot fail (the rate lookup
is total and the catalog is non-empty) and the returned name belongs to
the catalog. -/
theorem claim_C4 (s : String) (ct : CustomerType) (dates : List Date)
    (h : parse_input s = .ok (ct, dates)) :
    ∃ n, find_cheapest_hotel s = .ok n ∧ n ∈ hotels.map Hotel.name := by
  obtain ⟨p, hp⟩ : ∃ p, hminLe costKeyLe (costedCatalog ct dates) = some p := by
    have hcc : costedCatalog ct dates =
        [(⟨"Lakewood", 3, 110, 80, 90, 80⟩,
            calculate_total_cost ⟨"Lakewood", 3, 110, 80, 90, 80⟩ ct dates),
          (⟨"Bridgewood", 4, 160, 110, 60, 50⟩,
            calculate_total_cost ⟨"Bridgewood", 4, 160, 110, 60, 50⟩ ct dates),
          (⟨"Ridgewood", 5, 220, 100, 150, 40⟩,
            calculate_total_cost ⟨"Ridgewood", 5, 220, 100, 150, 40⟩ ct dates)] := rfl
    rw [hcc, hmin3]
    exact ⟨_, rfl⟩
  refine ⟨p.1.name, ?_, ?_⟩
  · unfold find_cheapest_hotel
    rw [h]
    dsimp only
    rw [find_cheapest_core_eq, hp]
    rfl
  · have hmem : p ∈ costedCatalog ct dates := hminLe_mem hp
    obtain ⟨h0, hh0, hph⟩ := List.mem_map.mp hmem
    exact List.mem_map.mpr ⟨p.1, by rw [← hph]; exact hh0, rfl⟩

theorem claim_C4_witness :
    ∃ n, find_cheapest_hotel "Regular: 16Mar2009" = .ok n ∧
      n ∈ hotels.map Hotel.name :=
  claim_C4 "Regular: 16Mar2009" CustomerType.REGULAR [⟨2009, 3, 16⟩] rfl

/-- C10: when both public operations succeed on the same input, the
`cheapest_hotel` field of the detailed analysis names the same hotel as
`find_cheapest_hotel`. -/
theorem claim_C10 (s : String) (n : String) (a : Analysis)
    (h1 : find_cheapest_hotel s = .ok n) (h2 : get_detailed_analysis s = .ok a) :
    a.cheapest_hotel = n := by
  unfold find_cheapest_hotel at h1
  unfold get_detailed_analysis at h2
  cases hp : parse_input s with
  | error e => rw [hp] at h1; exact absurd h1 (by simp)
  | ok r =>
    obtain ⟨ct, dates⟩ := r
    rw [hp] at h1 h2
    dsimp only at h1 h2
    have hmapeq : hotels.map (mkAnalysisEntry ct dates)
        = (costedCatalog ct dates).map (analysisOfPair ct dates) := rfl
    have hsort := isortLe_map (analysisOfPair ct dates) costKeyLe analysisKeyLe
      (fun p q => rfl) (costedCatalog ct dates)
    rw [hmapeq, hsort] at h2
    unfold find_cheapest_core at h1
    cases hs : isortLe costKeyLe (costedCatalog ct dates) with
    | nil => rw [hs] at h1; exact absurd h1 (by simp)
    | cons p rest =>
      rw [hs] at h1 h2
      simp only [List.map_cons] at h2
      obtain ⟨q, hq⟩ := p
      simp only [Except.ok.injEq] at h1 h2
      rw [← h2]
      exact h1

theorem claim_C10_witness :
    (get_detailed_analysis "Regular: 16Mar2009").map Analysis.cheapest_hotel
      = .ok "Lakewood" := by
  obtain ⟨a, ha⟩ : ∃ x, get_detailed_analysis "Regular: 16Mar2009" = .ok x := ⟨_, rfl⟩
  have hc := claim_C10 "Regular: 16Mar2009" "Lakewood" a rfl ha
  rw [ha]
  simp [Except.map, hc]

/-! ## Claim C9: the InvalidDateFormat diagnostics -/

theorem parseDates_first_fail {ts : List (List Char)}
    (hfail : ∃ t ∈ ts, parseDMY (cleanToken t) = none) :
    ∃ t ∈ ts, parseDMY (cleanToken t) = none ∧
      parseDates ts = .error (.invalidDateFormat (String.mk t)) := by
  induction ts with
  | nil => obtain ⟨t, ht, _⟩ := hfail; simp at ht
  | cons t0 ts ih =>
    cases hp : parseDMY (cleanToken t0) with
    | none => exact ⟨t0, by simp, hp, by simp [parseDates, hp]⟩
    | some d =>
      obtain ⟨t, ht, hfl⟩ := hfail
      rcases List.mem_cons.mp ht with rfl | hmem
      · exact absurd hp (by simp [hfl])
      · obtain ⟨t1, ht1, hfl1, heq1⟩ := ih ⟨t, hmem, hfl⟩
        exact ⟨t1, by simp [ht1], hfl1, by simp [parseDates, hp, heq1]⟩

/-- C9: whenever the input reaches date parsing (colon present, known
tier) and some cleaned token fails `strptime`, parsing fails with
`InvalidDateFormat` carrying a failing token exactly as it looked before
the parenthesized annotation was stripped, and the rendered message
contains that token as a substring. -/
theorem claim_C9 (s : String) (a b : List Char)
    (hsplit : splitColonOnce s.toList = some (a, b))
    (ct : CustomerType) (hct : parseCustomerType (pyStrip a) = some ct)
    (hfail : ∃ t ∈ tokensOf b, parseDMY (cleanToken t) = none) :
    ∃ t ∈ tokensOf b, parseDMY (cleanToken t) = none ∧
      parse_input s = .error (.invalidDateFormat (String.mk t)) ∧
      ∃ pre post, renderError (ParseError.invalidDateFormat (String.mk t))
          = pre ++ String.mk t ++ post := by
  obtain ⟨t, ht, hfl, heq⟩ := parseDates_first_fail hfail
  refine ⟨t, ht, hfl, ?_, "Invalid date format: ", ". Expected format: DDMmmYYYY", ?_⟩
  · unfold parse_input
    rw [hsplit]
    dsimp only
    rw [hct]
    dsimp only
    unfold tokensOf at heq
    rw [heq]
  · simp [renderError, String.ext_iff]

theorem claim_C9_witness :
    (∃ t ∈ tokensOf " 99Mar2009".toList, parseDMY (cleanToken t) = none) ∧
      ∃ t ∈ tokensOf " 99Mar2009".toList, parseDMY (cleanToken t) = none ∧
        parse_input "Regular: 99Mar2009" = .error (.invalidDateFormat (String.mk t)) ∧
        ∃ pre post, renderError (ParseError.invalidDateFormat (String.mk t))
            = pre ++ String.mk t ++ post := by
  have hf : ∃ t ∈ tokensOf " 99Mar2009".toList, parseDMY (cleanToken t) = none :=
    ⟨"99Mar2009".toList, by decide, by decide⟩
  exact ⟨hf, claim_C9 "Regular: 99Mar2009" "Regular".toList " 99Mar2009".toList rfl
    CustomerType.REGULAR rfl hf⟩

/-! ## Claim C8: splitting and rejoining the request string -/

theorem splitColonAux_sound {l : List Char} : ∀ {acc a b : List Char},
    splitColonAux acc l = some (a, b) →
    ∃ a0, a = acc.reverse ++ a0 ∧ l = a0 ++ ':' :: b ∧ ':' ∉ a0 := by
  induction l with
  | nil => intro acc a b h; simp [splitColonAux] at h
  | cons c rest ih =>
    intro acc a b h
    simp only [splitColonAux] at h
    by_cases hc : c = ':'
    · rw [if_pos hc] at h
      simp only [Option.some.injEq, Prod.mk.injEq] at h
      obtain ⟨rfl, rfl⟩ := h
      exact ⟨[], by simp, by simp [hc], by simp⟩
    · rw [if_neg hc] at h
      obtain ⟨a0, ha, hl, hnin⟩ := ih h
      refine ⟨c :: a0, ?_, by simp [hl], ?_⟩
      · rw [ha]; simp
      · intro hmem
        rcases List.mem_cons.mp hmem with h1 | h1
        · exact hc h1.symm
        · exact hnin h1

theorem splitColonOnce_sound {l a b : List Char} (h : splitColonOnce l = some (a, b)) :
    l = a ++ ':' :: b ∧ ':' ∉ a := by
  obtain ⟨a0, ha, hl, hnin⟩ := splitColonAux_sound h
  simp only [List.reverse_nil, List.nil_append] at ha
  subst ha
  exact ⟨hl, hnin⟩

theorem splitColonAux_of_append {a : List Char} (hna : ':' ∉ a) :
    ∀ (acc b : List Char), splitColonAux acc (a ++ ':' :: b) = some (acc.reverse ++ a, b) := by
  induction a with
  | nil => intro acc b; simp [splitColonAux]
  | cons c a0 ih =>
    intro acc b
    have hc : ¬ c = ':' := fun h => hna (by simp [h])
    simp only [List.cons_append, List.append_eq, splitColonAux, if_neg hc]
    rw [ih (fun hm => hna (by simp [hm])) (c :: acc) b]
    simp

theorem splitColonOnce_of_append {a : List Char} (b : List Char) (hna : ':' ∉ a) :
    splitColonOnce (a ++ ':' :: b) = some (a, b) := by
  have := splitColonAux_of_append hna [] b
  simpa [splitColonOnce] using this

theorem splitCommaAux_shift {t : List Char} (hnc : ',' ∉ t) :
    ∀ (acc rest : List Char),
      splitCommaAux acc (t ++ rest) = splitCommaAux (t.reverse ++ acc) rest := by
  induction t with
  | nil => intro acc rest; simp
  | cons c t0 ih =>
    intro acc rest
    have hc : ¬ c = ',' := fun h => hnc (by simp [h])
    simp only [List.cons_append, List.append_eq, splitCommaAux, if_neg hc]
    rw [ih (fun hm => hnc (by simp [hm])) (c :: acc) rest]
    simp

theorem splitComma_shape (l : List Char) :
    ∃ hd tl, splitComma l = hd :: tl ∧
      ∀ acc, splitCommaAux acc l = (acc.reverse ++ hd) :: tl := by
  induction l with
  | nil => exact ⟨[], [], rfl, fun acc => by simp [splitCommaAux]⟩
  | cons c l2 ih =>
    obtain ⟨hd, tl, hsp, hacc⟩ := ih
    by_cases hc : c = ','
    · subst hc
      exact ⟨[], splitComma l2, by simp [splitComma, splitCommaAux],
        fun acc => by simp [splitCommaAux, splitComma]⟩
    · refine ⟨c :: hd, tl, ?_, fun acc => ?_⟩
      · show splitCommaAux [] (c :: l2) = (c :: hd) :: tl
        simp only [splitCommaAux, if_neg hc]
        rw [hacc [c]]
        simp
      · simp only [splitCommaAux, if_neg hc]
        rw [hacc (c :: acc)]
        simp

theorem splitComma_append_front {u : List Char} (z : List Char) (hnu : ',' ∉ u) :
    splitComma (u ++ z) = applyFirst (u ++ ·) (splitComma z) := by
  obtain ⟨hd, tl, hsp, hacc⟩ := splitComma_shape z
  rw [hsp]
  simp only [applyFirst]
  rw [show splitComma (u ++ z) = splitCommaAux [] (u ++ z) from rfl,
    splitCommaAux_shift hnu [] z, List.append_nil, hacc u.reverse]
  simp

theorem splitCommaAux_append_back {v : List Char} (hnv : ',' ∉ v) :
    ∀ (z acc : List Char),
      splitCommaAux acc (z ++ v) = applyLast (· ++ v) (splitCommaAux acc z) := by
  intro z
  induction z with
  | nil =>
    intro acc
    have h1 : splitCommaAux acc v = [acc.reverse ++ v] := by
      have := splitCommaAux_shift hnv acc []
      simpa [splitCommaAux] using this
    simpa [splitCommaAux, applyLast] using h1
  | cons c z2 ih =>
    intro acc
    by_cases hc : c = ','
    · subst hc
      simp only [List.cons_append, List.append_eq, splitCommaAux, eq_self_iff_true, if_true]
      rw [ih []]
      have hzne := splitCommaAux_ne_nil [] z2
      cases hsz : splitCommaAux [] z2 with
      | nil => exact absurd hsz hzne
      | cons x xs => simp [applyLast]
    · simp only [List.cons_append, List.append_eq, splitCommaAux, if_neg hc]
      exact ih (c :: acc)

theorem splitComma_append_back (z : List Char) {v : List Char} (hnv : ',' ∉ v) :
    splitComma (z ++ v) = applyLast (· ++ v) (splitComma z) :=
  splitCommaAux_append_back hnv z []

theorem splitCommaAux_no_comma : ∀ {l acc : List Char}, ',' ∉ acc →
    ∀ t ∈ splitCommaAux acc l, ',' ∉ t := by
  intro l
  induction l with
  | nil =>
    intro acc hacc t ht
    simp only [splitCommaAux, List.mem_singleton] at ht
    subst ht
    intro hm
    exact hacc (List.mem_reverse.mp hm)
  | cons c l2 ih =>
    intro acc hacc t ht
    by_cases hc : c = ','
    · subst hc
      simp only [splitCommaAux, if_pos rfl] at ht
      rcases List.mem_cons.mp ht with rfl | hmem
      · intro hm; exact hacc (List.mem_reverse.mp hm)
      · exact ih (by simp) t hmem
    · simp only [splitCommaAux, if_neg hc] at ht
      refine ih ?_ t ht
      intro hm
      rcases List.mem_cons.mp hm with h1 | h1
      · exact hc h1.symm
      · exact hacc h1

theorem splitComma_tokens_no_comma (l : List Char) : ∀ t ∈ splitComma l, ',' ∉ t :=
  splitCommaAux_no_comma (by simp)

theorem splitComma_joinComma : ∀ {ts : List (List Char)}, ts ≠ [] →
    (∀ t ∈ ts, ',' ∉ t) → splitComma (joinComma ts) = ts := by
  intro ts
  induction ts with
  | nil => intro h; exact absurd rfl h
  | cons t ts ih =>
    intro _ hno
    cases ts with
    | nil =>
      show splitComma t = [t]
      have := splitCommaAux_shift (hno t (by simp)) [] []
      simpa [splitComma, splitCommaAux] using this
    | cons t2 ts2 =>
      show splitComma (t ++ ',' :: joinComma (t2 :: ts2)) = t :: t2 :: ts2
      rw [show splitComma (t ++ ',' :: joinComma (t2 :: ts2))
          = splitCommaAux [] (t ++ ',' :: joinComma (t2 :: ts2)) from rfl,
        splitCommaAux_shift (hno t (by simp)) [] _]
      simp only [splitCommaAux, if_pos rfl]
      rw [show splitCommaAux [] (joinComma (t2 :: ts2))
          = splitComma (joinComma (t2 :: ts2)) from rfl,
        ih (by simp) (fun x hx => hno x (by simp [hx]))]
      simp

/-! ## Claim C8: whitespace stripping lemmas -/

theorem allWs_takeWhile (l : List Char) : allWs (l.takeWhile isPySpace) := by
  intro c hc
  exact List.mem_takeWhile_imp hc

theorem pyStripRight_decomp (l : List Char) :
    ∃ v, l = pyStripRight l ++ v ∧ allWs v := by
  refine ⟨(l.reverse.takeWhile isPySpace).reverse, ?_, ?_⟩
  · calc l = l.reverse.reverse := (List.reverse_reverse l).symm
    _ = (l.reverse.takeWhile isPySpace ++ l.reverse.dropWhile isPySpace).reverse := by
        rw [List.takeWhile_append_dropWhile]
    _ = pyStripRight l ++ (l.reverse.takeWhile isPySpace).reverse := by
        rw [List.reverse_append]; rfl
  · intro c hc
    exact List.mem_takeWhile_imp (List.mem_reverse.mp hc)

theorem pyStrip_decomp (l : List Char) :
    ∃ u v, l = u ++ (pyStrip l ++ v) ∧ allWs u ∧ allWs v := by
  obtain ⟨v, hv, hws⟩ := pyStripRight_decomp (pyStripLeft l)
  refine ⟨l.takeWhile isPySpace, v, ?_, allWs_takeWhile l, hws⟩
  conv_lhs => rw [← List.takeWhile_append_dropWhile (p := isPySpace) (l := l)]
  rw [show pyStrip l = pyStripRight (pyStripLeft l) from rfl, ← hv]
  rfl

theorem dropWhile_append_allWs {u : List Char} (hu : allWs u) (t : List Char) :
    (u ++ t).dropWhile isPySpace = t.dropWhile isPySpace := by
  induction u with
  | nil => rfl
  | cons c u0 ih =>
    have hc : isPySpace c = true := hu c (by simp)
    simp [List.dropWhile_cons, hc, ih (fun x hx => hu x (by simp [hx]))]

theorem dropWhile_allWs {v : List Char} (hv : allWs v) : v.dropWhile isPySpace = [] := by
  induction v with
  | nil => rfl
  | cons c v0 ih =>
    simp [List.dropWhile_cons, hv c (by simp), ih (fun x hx => hv x (by simp [hx]))]

theorem pyStrip_append_left {u : List Char} (hu : allWs u) (t : List Char) :
    pyStrip (u ++ t) = pyStrip t := by
  unfold pyStrip pyStripLeft
  rw [dropWhile_append_allWs hu]

theorem pyStripRight_append_allWs {v : List Char} (hv : allWs v) (t : List Char) :
    pyStripRight (t ++ v) = pyStripRight t := by
  unfold pyStripRight
  rw [List.reverse_append,
    dropWhile_append_allWs (fun c hc => hv c (List.mem_reverse.mp hc))]

theorem dropWhile_append_ne_nil {t v : List Char}
    (h : t.dropWhile isPySpace ≠ []) :
    (t ++ v).dropWhile isPySpace = t.dropWhile isPySpace ++ v := by
  induction t with
  | nil => exact absurd rfl h
  | cons c t0 ih =>
    by_cases hc : isPySpace c = true
    · rw [List.dropWhile_cons] at h
      rw [if_pos hc] at h
      simp only [List.cons_append, List.dropWhile_cons, hc, if_true]
      exact ih h
    · simp [List.dropWhile_cons, hc]

theorem pyStrip_append_right {v : List Char} (hv : allWs v) (t : List Char) :
    pyStrip (t ++ v) = pyStrip t := by
  unfold pyStrip
  cases h : pyStripLeft t with
  | nil =>
    have h2 : pyStripLeft (t ++ v) = [] := by
      have ht : allWs t := by
        intro c hc
        have := List.dropWhile_eq_nil_iff.mp h
        exact this c hc
      unfold pyStripLeft
      rw [dropWhile_append_allWs ht, dropWhile_allWs hv]
    rw [h2]
  | cons x xs =>
    have h2 : pyStripLeft (t ++ v) = pyStripLeft t ++ v := by
      unfold pyStripLeft at h ⊢
      exact dropWhile_append_ne_nil (by rw [h]; simp)
    rw [h2, pyStripRight_append_allWs hv, h]

theorem mem_pyStrip_of_mem {c : Char} {l : List Char} (hc : isPySpace c = false)
    (h : c ∈ l) : c ∈ pyStrip l := by
  obtain ⟨u, v, hdec, hu, hv⟩ := pyStrip_decomp l
  rw [hdec] at h
  rcases List.mem_append.mp h with h1 | h1
  · exact absurd (hu c h1) (by simp [hc])
  · rcases List.mem_append.mp h1 with h2 | h2
    · exact h2
    · exact absurd (hv c h2) (by simp [hc])

theorem dropWhile_head_false : ∀ {t : List Char} {c : Char} {rest : List Char},
    t.dropWhile isPySpace = c :: rest → isPySpace c = false := by
  intro t
  induction t with
  | nil => intro c rest h; simp at h
  | cons x xs ih =>
    intro c rest h
    rw [List.dropWhile_cons] at h
    by_cases hx : isPySpace x = true
    · rw [if_pos hx] at h; exact ih h
    · rw [if_neg hx] at h
      cases h
      simpa using hx

theorem head_pyStrip_not_ws {l : List Char} {c : Char} {r : List Char}
    (h : pyStrip l = c :: r) : isPySpace c = false := by
  obtain ⟨v, hv, _⟩ := pyStripRight_decomp (pyStripLeft l)
  rw [show pyStrip l = pyStripRight (pyStripLeft l) from rfl] at h
  rw [h, List.cons_append] at hv
  exact dropWhile_head_false hv

theorem pyStrip_eq_self {l : List Char}
    (h1 : ∀ c, l.head? = some c → isPySpace c = false)
    (h2 : ∀ c, l.getLast? = some c → isPySpace c = false) : pyStrip l = l := by
  cases l with
  | nil => rfl
  | cons c r =>
    have hc : isPySpace c = false := h1 c rfl
    have hL : pyStripLeft (c :: r) = c :: r := by
      unfold pyStripLeft
      rw [List.dropWhile_cons, if_neg (by simp [hc])]
    unfold pyStrip
    rw [hL]
    unfold pyStripRight
    cases hr : (c :: r).reverse with
    | nil => exact absurd hr (by simp)
    | cons d rr =>
      have hd : (c :: r).getLast? = some d := by
        rw [← List.head?_reverse, hr]; rfl
      have hdws : isPySpace d = false := h2 d hd
      rw [List.dropWhile_cons, if_neg (by simp [hdws]), ← hr, List.reverse_reverse]

/-! ## Claim C8: regex-strip lemmas -/

theorem contains_iff_mem {l : List Char} {c : Char} : l.contains c = true ↔ c ∈ l :=
  List.elem_iff

theorem spAux_false_cons (c : Char) (rest : List Char) :
    stripParensAux false (c :: rest)
      = if c = '(' && rest.contains ')' then stripParensAux true rest
        else c :: stripParensAux false rest := rfl

theorem spAux_true_cons (c : Char) (rest : List Char) :
    stripParensAux true (c :: rest)
      = if c = ')' then stripParensAux false rest else stripParensAux true rest := rfl

theorem stripParensAux_id {l : List Char} (h : '(' ∉ l) :
    stripParensAux false l = l := by
  induction l with
  | nil => rfl
  | cons c rest ih =>
    have hc : ¬ c = '(' := fun hh => h (by simp [hh])
    rw [spAux_false_cons, if_neg (by simp [hc]), ih (fun hm => h (by simp [hm]))]

theorem stripParensAux_skip {w : List Char} (hw : ')' ∉ w) (rest : List Char) :
    stripParensAux true (w ++ ')' :: rest) = stripParensAux false rest := by
  induction w with
  | nil => simp [spAux_true_cons]
  | cons c w0 ih =>
    have hc : ¬ c = ')' := fun hh => hw (by simp [hh])
    rw [List.cons_append, spAux_true_cons, if_neg hc]
    exact ih (fun hm => hw (by simp [hm]))

theorem stripParensAux_append_noparen {ext : List Char}
    (h1 : '(' ∉ ext) (h2 : ')' ∉ ext) :
    ∀ (x : List Char) (mode : Bool), (mode = true → ')' ∈ x) →
      stripParensAux mode (x ++ ext) = stripParensAux mode x ++ ext := by
  intro x
  induction x with
  | nil =>
    intro mode hm
    cases mode with
    | true => exact absurd (hm rfl) (by simp)
    | false => simpa using stripParensAux_id h1
  | cons c x2 ih =>
    intro mode hm
    cases mode with
    | true =>
      by_cases hc : c = ')'
      · subst hc
        rw [List.cons_append, spAux_true_cons, if_pos rfl, spAux_true_cons, if_pos rfl]
        exact ih false (by simp)
      · rw [List.cons_append, spAux_true_cons, if_neg hc, spAux_true_cons, if_neg hc]
        refine ih true (fun _ => ?_)
        rcases List.mem_cons.mp (hm rfl) with h3 | h3
        · exact absurd h3.symm hc
        · exact h3
    | false =>
      by_cases hc : c = '('
      · subst hc
        by_cases hx2 : x2.contains ')' = true
        · have hcond : ('(' = '(' && (x2 ++ ext).contains ')') = true := by
            simp only [Bool.and_eq_true, decide_eq_true_eq]
            exact ⟨trivial, contains_iff_mem.mpr (List.mem_append.mpr (Or.inl
              (contains_iff_mem.mp hx2)))⟩
          have hcond2 : ('(' = '(' && x2.contains ')') = true := by
            simp [contains_iff_mem.mp hx2]
          rw [List.cons_append, spAux_false_cons, if_pos hcond, spAux_false_cons,
            if_pos hcond2]
          exact ih true (fun _ => contains_iff_mem.mp hx2)
        · have hnx2ext : ¬ ((x2 ++ ext).contains ')' = true) := by
            intro hcon
            rcases List.mem_append.mp (contains_iff_mem.mp hcon) with h3 | h3
            · exact hx2 (contains_iff_mem.mpr h3)
            · exact h2 h3
          have hcond : ¬ (('(' = '(' && (x2 ++ ext).contains ')') = true) := by
            simp only [Bool.and_eq_true, decide_eq_true_eq]
            exact fun hh => hnx2ext hh.2
          have hcond2 : ¬ (('(' = '(' && x2.contains ')') = true) := by
            simp only [Bool.and_eq_true, decide_eq_true_eq]
            exact fun hh => hx2 hh.2
          rw [List.cons_append, spAux_false_cons, if_neg hcond, spAux_false_cons,
            if_neg hcond2, List.cons_append, ih false (by simp)]
      · have hcond : ¬ ((c = '(' && (x2 ++ ext).contains ')') = true) := by
          simp [hc]
        have hcond2 : ¬ ((c = '(' && x2.contains ')') = true) := by
          simp [hc]
        rw [List.cons_append, spAux_false_cons, if_neg hcond, spAux_false_cons,
          if_neg hcond2, List.cons_append, ih false (by simp)]

theorem stripParensAux_annot {w : List Char} (hw : ')' ∉ w) :
    ∀ (x : List Char) (mode : Bool), (mode = true → ')' ∈ x) →
      '(' ∉ stripParensAux mode x →
      stripParensAux mode (x ++ annot w) = stripParensAux mode x := by
  intro x
  induction x with
  | nil =>
    intro mode hm _
    cases mode with
    | true => exact absurd (hm rfl) (by simp)
    | false =>
      show stripParensAux false (annot w) = []
      have hcond : ('(' = '(' && (w ++ [')']).contains ')') = true := by
        simp only [Bool.and_eq_true, decide_eq_true_eq]
        exact ⟨trivial, contains_iff_mem.mpr (List.mem_append.mpr (Or.inr (by simp)))⟩
      rw [show annot w = '(' :: (w ++ [')']) from rfl, spAux_false_cons, if_pos hcond,
        show w ++ [')'] = w ++ ')' :: [] from rfl, stripParensAux_skip hw]
      rfl
  | cons c x2 ih =>
    intro mode hm hnp
    cases mode with
    | true =>
      by_cases hc : c = ')'
      · subst hc
        rw [spAux_true_cons, if_pos rfl] at hnp
        rw [List.cons_append, spAux_true_cons, if_pos rfl, spAux_true_cons, if_pos rfl]
        exact ih false (by simp) hnp
      · rw [spAux_true_cons, if_neg hc] at hnp
        rw [List.cons_append, spAux_true_cons, if_neg hc, spAux_true_cons, if_neg hc]
        refine ih true (fun _ => ?_) hnp
        rcases List.mem_cons.mp (hm rfl) with h3 | h3
        · exact absurd h3.symm hc
        · exact h3
    | false =>
      by_cases hc : c = '('
      · subst hc
        by_cases hx2 : x2.contains ')' = true
        · have hcond2 : ('(' = '(' && x2.contains ')') = true := by
            simp [contains_iff_mem.mp hx2]
          have hcond : ('(' = '(' && (x2 ++ annot w).contains ')') = true := by
            simp only [Bool.and_eq_true, decide_eq_true_eq]
            exact ⟨trivial, contains_iff_mem.mpr (List.mem_append.mpr (Or.inl
              (contains_iff_mem.mp hx2)))⟩
          rw [spAux_false_cons, if_pos hcond2] at hnp
          rw [List.cons_append, spAux_false_cons, if_pos hcond, spAux_false_cons,
            if_pos hcond2]
          exact ih true (fun _ => contains_iff_mem.mp hx2) hnp
        · have hcond2 : ¬ (('(' = '(' && x2.contains ')') = true) := by
            simp only [Bool.and_eq_true, decide_eq_true_eq]
            exact fun hh => hx2 hh.2
          rw [spAux_false_cons, if_neg hcond2] at hnp
          exact absurd (by simp) hnp
      · have hcond2 : ¬ ((c = '(' && x2.contains ')') = true) := by simp [hc]
        by_cases hx2a : (x2 ++ annot w).contains ')' = true
        · have hcond : ¬ ((c = '(' && (x2 ++ annot w).contains ')') = true) := by
            simp [hc]
          rw [spAux_false_cons, if_neg hcond2] at hnp
          rw [List.cons_append, spAux_false_cons, if_neg hcond, spAux_false_cons,
            if_neg hcond2]
          rw [ih false (by simp) (fun hm2 => hnp (by simp [hm2]))]
        · have hcond : ¬ ((c = '(' && (x2 ++ annot w).contains ')') = true) := by
            simp [hc]
          rw [spAux_false_cons, if_neg hcond2] at hnp
          rw [List.cons_append, spAux_false_cons, if_neg hcond, spAux_false_cons,
            if_neg hcond2]
          rw [ih false (by simp) (fun hm2 => hnp (by simp [hm2]))]

/-! ## Claim C8: characters of a parseable date token -/

theorem digit_ne_lparen {c : Char} (h : c.isDigit = true) : c ≠ '(' := by
  rintro rfl
  exact absurd h (by decide)

theorem parseDay_decomp {cs : List Char} {n : Nat} {r : List Char}
    (h : parseDay cs = some (n, r)) :
    ∃ pre, cs = pre ++ r ∧ ∀ c ∈ pre, c.isDigit = true := by
  cases cs with
  | nil => simp [parseDay] at h
  | cons c1 rest1 =>
    cases rest1 with
    | nil =>
      simp only [parseDay] at h
      split at h
      · rename_i hcond
        simp only [Bool.and_eq_true] at hcond
        simp only [Option.some.injEq, Prod.mk.injEq] at h
        obtain ⟨rfl, rfl⟩ := h
        refine ⟨[c1], by simp, fun c hcm => ?_⟩
        have hcc : c = c1 := by simpa using hcm
        subst hcc
        exact hcond.1
      · exact absurd h (by simp)
    | cons c2 rest2 =>
      simp only [parseDay] at h
      split at h
      · rename_i hcond
        simp only [Bool.and_eq_true, Bool.or_eq_true, decide_eq_true_eq] at hcond
        simp only [Option.some.injEq, Prod.mk.injEq] at h
        obtain ⟨rfl, rfl⟩ := h
        refine ⟨[c1, c2], by simp, fun c hcm => ?_⟩
        rcases (by simpa using hcm : c = c1 ∨ c = c2) with rfl | rfl
        · rw [hcond.1]; decide
        · rcases hcond.2 with h0 | h0 <;> rw [h0] <;> decide
      · split at h
        · rename_i hcond
          simp only [Bool.and_eq_true, Bool.or_eq_true, decide_eq_true_eq] at hcond
          simp only [Option.some.injEq, Prod.mk.injEq] at h
          obtain ⟨rfl, rfl⟩ := h
          refine ⟨[c1, c2], by simp, fun c hcm => ?_⟩
          rcases (by simpa using hcm : c = c1 ∨ c = c2) with rfl | rfl
          · rcases hcond.1 with h0 | h0 <;> rw [h0] <;> decide
          · exact hcond.2
        · split at h
          · rename_i hcond
            simp only [Bool.and_eq_true, decide_eq_true_eq] at hcond
            simp only [Option.some.injEq, Prod.mk.injEq] at h
            obtain ⟨rfl, rfl⟩ := h
            refine ⟨[c1, c2], by simp, fun c hcm => ?_⟩
            rcases (by simpa using hcm : c = c1 ∨ c = c2) with rfl | rfl
            · rw [hcond.1]; decide
            · exact hcond.2.1
          · split at h
            · rename_i hcond
              simp only [Bool.and_eq_true, decide_eq_true_eq] at hcond
              simp only [Option.some.injEq, Prod.mk.injEq] at h
              obtain ⟨rfl, rfl⟩ := h
              refine ⟨[c1], by simp, fun c hcm => ?_⟩
              have hcc : c = c1 := by simpa using hcm
              subst hcc
              exact hcond.1
            · exact absurd h (by simp)

theorem monthOfAbbrev_ne_lparen {c1 c2 c3 : Char} {m : Nat}
    (h : monthOfAbbrev c1 c2 c3 = some m) :
    c1 ≠ '(' ∧ c2 ≠ '(' ∧ c3 ≠ '(' := by
  have key : ∀ c x : Char, lowerChar c = x → x ≠ '(' → c ≠ '(' := by
    intro c x hcx hx
    rintro rfl
    rw [show lowerChar '(' = '(' from by decide] at hcx
    exact hx hcx.symm
  have key3 : ∀ x y z : Char, [lowerChar c1, lowerChar c2, lowerChar c3] = [x, y, z] →
      x ≠ '(' → y ≠ '(' → z ≠ '(' → c1 ≠ '(' ∧ c2 ≠ '(' ∧ c3 ≠ '(' := by
    intro x y z heq hx hy hz
    simp only [List.cons.injEq, and_true] at heq
    exact ⟨key c1 _ heq.1 hx, key c2 _ heq.2.1 hy, key c3 _ heq.2.2 hz⟩
  unfold monthOfAbbrev at h
  simp only at h
  by_cases h1 : [lowerChar c1, lowerChar c2, lowerChar c3] = ['j', 'a', 'n']
  · exact key3 _ _ _ h1 (by decide) (by decide) (by decide)
  rw [if_neg h1] at h
  by_cases h2 : [lowerChar c1, lowerChar c2, lowerChar c3] = ['f', 'e', 'b']
  · exact key3 _ _ _ h2 (by decide) (by decide) (by decide)
  rw [if_neg h2] at h
  by_cases h3 : [lowerChar c1, lowerChar c2, lowerChar c3] = ['m', 'a', 'r']
  · exact key3 _ _ _ h3 (by decide) (by decide) (by decide)
  rw [if_neg h3] at h
  by_cases h4 : [lowerChar c1, lowerChar c2, lowerChar c3] = ['a', 'p', 'r']
  · exact key3 _ _ _ h4 (by decide) (by decide) (by decide)
  rw [if_neg h4] at h
  by_cases h5 : [lowerChar c1, lowerChar c2, lowerChar c3] = ['m', 'a', 'y']
  · exact key3 _ _ _ h5 (by decide) (by decide) (by decide)
  rw [if_neg h5] at h
  by_cases h6 : [lowerChar c1, lowerChar c2, lowerChar c3] = ['j', 'u', 'n']
  · exact key3 _ _ _ h6 (by decide) (by decide) (by decide)
  rw [if_neg h6] at h
  by_cases h7 : [lowerChar c1, lowerChar c2, lowerChar c3] = ['j', 'u', 'l']
  · exact key3 _ _ _ h7 (by decide) (by decide) (by decide)
  rw [if_neg h7] at h
  by_cases h8 : [lowerChar c1, lowerChar c2, lowerChar c3] = ['a', 'u', 'g']
  · exact key3 _ _ _ h8 (by decide) (by decide) (by decide)
  rw [if_neg h8] at h
  by_cases h9 : [lowerChar c1, lowerChar c2, lowerChar c3] = ['s', 'e', 'p']
  · exact key3 _ _ _ h9 (by decide) (by decide) (by decide)
  rw [if_neg h9] at h
  by_cases h10 : [lowerChar c1, lowerChar c2, lowerChar c3] = ['o', 'c', 't']
  · exact key3 _ _ _ h10 (by decide) (by decide) (by decide)
  rw [if_neg h10] at h
  by_cases h11 : [lowerChar c1, lowerChar c2, lowerChar c3] = ['n', 'o', 'v']
  · exact key3 _ _ _ h11 (by decide) (by decide) (by decide)
  rw [if_neg h11] at h
  by_cases h12 : [lowerChar c1, lowerChar c2, lowerChar c3] = ['d', 'e', 'c']
  · exact key3 _ _ _ h12 (by decide) (by decide) (by decide)
  rw [if_neg h12] at h
  exact absurd h (by simp)

theorem parseMonth_decomp {cs : List Char} {n : Nat} {r : List Char}
    (h : parseMonth cs = some (n, r)) :
    ∃ c1 c2 c3, cs = c1 :: c2 :: c3 :: r ∧ c1 ≠ '(' ∧ c2 ≠ '(' ∧ c3 ≠ '(' := by
  cases cs with
  | nil => simp [parseMonth] at h
  | cons c1 r1 =>
    cases r1 with
    | nil => simp [parseMonth] at h
    | cons c2 r2 =>
      cases r2 with
      | nil => simp [parseMonth] at h
      | cons c3 rest =>
        simp only [parseMonth, Option.map_eq_some'] at h
        obtain ⟨m0, hm0, hpair⟩ := h
        simp only [Prod.mk.injEq] at hpair
        obtain ⟨rfl, rfl⟩ := hpair
        obtain ⟨h1, h2, h3⟩ := monthOfAbbrev_ne_lparen hm0
        exact ⟨c1, c2, c3, rfl, h1, h2, h3⟩

theorem parseYear_decomp {cs : List Char} {n : Nat} {r : List Char}
    (h : parseYear cs = some (n, r)) :
    ∃ d1 d2 d3 d4, cs = d1 :: d2 :: d3 :: d4 :: r ∧
      d1.isDigit = true ∧ d2.isDigit = true ∧ d3.isDigit = true ∧ d4.isDigit = true := by
  cases cs with
  | nil => simp [parseYear] at h
  | cons d1 r1 =>
    cases r1 with
    | nil => simp [parseYear] at h
    | cons d2 r2 =>
      cases r2 with
      | nil => simp [parseYear] at h
      | cons d3 r3 =>
        cases r3 with
        | nil => simp [parseYear] at h
        | cons d4 rest =>
          simp only [parseYear] at h
          split at h
          · rename_i hcond
            simp only [Bool.and_eq_true] at hcond
            simp only [Option.some.injEq, Prod.mk.injEq] at h
            obtain ⟨rfl, rfl⟩ := h
            exact ⟨d1, d2, d3, d4, rfl, hcond.1.1.1, hcond.1.1.2, hcond.1.2, hcond.2⟩
          · exact absurd h (by simp)

theorem parseDMY_no_lparen {cs : List Char} {d : Date}
    (h : parseDMY cs = some d) : '(' ∉ cs := by
  unfold parseDMY at h
  cases hday : parseDay cs with
  | none => rw [hday] at h; simp at h
  | some pr =>
    obtain ⟨dd, r1⟩ := pr
    rw [hday] at h
    dsimp only at h
    cases hmon : parseMonth r1 with
    | none => rw [hmon] at h; simp at h
    | some pm =>
      obtain ⟨mm, r2⟩ := pm
      rw [hmon] at h
      dsimp only at h
      cases hyr : parseYear r2 with
      | none => rw [hyr] at h; simp at h
      | some py =>
        obtain ⟨yy, r3⟩ := py
        rw [hyr] at h
        dsimp only at h
        split at h
        · rename_i hcond
          simp only [Bool.and_eq_true, List.isEmpty_eq_true] at hcond
          obtain ⟨pre, hcs, hdig⟩ := parseDay_decomp hday
          obtain ⟨c1, c2, c3, hr1, h1, h2, h3⟩ := parseMonth_decomp hmon
          obtain ⟨e1, e2, e3, e4, hr2, k1, k2, k3, k4⟩ := parseYear_decomp hyr
          have hr3 : r3 = [] := hcond.1.1.1
          subst hr3
          rw [hcs, hr1, hr2]
          intro hmem
          rcases List.mem_append.mp hmem with hm | hm
          · exact (digit_ne_lparen (hdig _ hm)) rfl
          · simp only [List.mem_cons, List.not_mem_nil, or_false] at hm
            rcases hm with hx | hx | hx | hx | hx | hx | hx
            · exact h1 hx.symm
            · exact h2 hx.symm
            · exact h3 hx.symm
            · exact (digit_ne_lparen k1) hx.symm
            · exact (digit_ne_lparen k2) hx.symm
            · exact (digit_ne_lparen k3) hx.symm
            · exact (digit_ne_lparen k4) hx.symm
        · exact absurd h (by simp)

theorem cleanToken_no_lparen {t : List Char} {d : Date}
    (h : parseDMY (cleanToken t) = some d) : '(' ∉ stripParens t := by
  intro hmem
  exact parseDMY_no_lparen h (mem_pyStrip_of_mem (by decide) hmem)

theorem allWs_no_lparen {v : List Char} (hv : allWs v) : '(' ∉ v := by
  intro hm
  exact absurd (hv _ hm) (by decide)

theorem allWs_no_rparen {v : List Char} (hv : allWs v) : ')' ∉ v := by
  intro hm
  exact absurd (hv _ hm) (by decide)

theorem allWs_no_comma {v : List Char} (hv : allWs v) : ',' ∉ v := by
  intro hm
  exact absurd (hv _ hm) (by decide)

/-! ## Claim C8: the token-level annotation lemma -/

theorem getLast?_append_annot (x w : List Char) :
    (x ++ annot w).getLast? = some ')' := by
  rw [← List.head?_reverse, List.reverse_append]
  have hrev : (annot w).reverse = ')' :: (w.reverse ++ ['(']) := by
    simp [annot]
  rw [hrev]
  rfl

theorem cleanToken_annot {t w : List Char} {d : Date}
    (hw : ')' ∉ w) (h : parseDMY (cleanToken (pyStrip t)) = some d) :
    cleanToken (pyStrip (t ++ annot w)) = cleanToken (pyStrip t) := by
  obtain ⟨u, v, hdec, hu, hv⟩ := pyStrip_decomp t
  cases ht1 : pyStrip t with
  | nil =>
    rw [ht1] at h
    rw [show parseDMY (cleanToken ([] : List Char)) = none from rfl] at h
    exact absurd h (by simp)
  | cons c0 t1r =>
    have hws0 : isPySpace c0 = false := head_pyStrip_not_ws ht1
    have hstep1 : pyStrip (t ++ annot w) = (c0 :: t1r) ++ (v ++ annot w) := by
      have ht' : t ++ annot w = u ++ ((c0 :: t1r) ++ (v ++ annot w)) := by
        rw [hdec, ht1]
        simp [List.append_assoc]
      rw [ht', pyStrip_append_left hu]
      apply pyStrip_eq_self
      · intro c hc
        simp only [List.cons_append, List.head?_cons, Option.some.injEq] at hc
        rw [← hc]
        exact hws0
      · intro c hc
        rw [show (c0 :: t1r) ++ (v ++ annot w) = ((c0 :: t1r) ++ v) ++ annot w from by
          simp [List.append_assoc]] at hc
        rw [getLast?_append_annot] at hc
        simp only [Option.some.injEq] at hc
        rw [← hc]
        decide
    have hnp1 : '(' ∉ stripParens (c0 :: t1r) := by
      have h0 := cleanToken_no_lparen h
      rw [ht1] at h0
      exact h0
    have hext : stripParensAux false ((c0 :: t1r) ++ v)
        = stripParensAux false (c0 :: t1r) ++ v :=
      stripParensAux_append_noparen (allWs_no_lparen hv) (allWs_no_rparen hv)
        (c0 :: t1r) false (by simp)
    have hnp2 : '(' ∉ stripParensAux false ((c0 :: t1r) ++ v) := by
      rw [hext]
      intro hm
      rcases List.mem_append.mp hm with hm1 | hm1
      · exact hnp1 hm1
      · exact allWs_no_lparen hv hm1
    have hstep2 : stripParens ((c0 :: t1r) ++ (v ++ annot w))
        = stripParens (c0 :: t1r) ++ v := by
      rw [show (c0 :: t1r) ++ (v ++ annot w) = ((c0 :: t1r) ++ v) ++ annot w from by
        simp [List.append_assoc]]
      show stripParensAux false (((c0 :: t1r) ++ v) ++ annot w) = _
      rw [stripParensAux_annot hw ((c0 :: t1r) ++ v) false (by simp) hnp2, hext]
      rfl
    calc cleanToken (pyStrip (t ++ annot w))
        = pyStrip (stripParens (pyStrip (t ++ annot w))) := rfl
      _ = pyStrip (stripParens (c0 :: t1r) ++ v) := by rw [hstep1, hstep2]
      _ = pyStrip (stripParens (c0 :: t1r)) := pyStrip_append_right hv _
      _ = cleanToken (c0 :: t1r) := rfl

/-! ## Claim C8: congruence of parsing under clean-token equality -/

theorem parseDates_congr {ts ts' : List (List Char)}
    (hf : List.Forall₂ (fun t t' => cleanToken t = cleanToken t') ts ts') :
    ∀ {ds : List Date}, parseDates ts = .ok ds → parseDates ts' = .ok ds := by
  induction hf with
  | nil => intro ds h; exact h
  | cons hab htail ih =>
    rename_i a b ta tb
    intro ds h
    simp only [parseDates] at h ⊢
    rw [← hab]
    cases hp : parseDMY (cleanToken a) with
    | none => rw [hp] at h; exact absurd h (by simp)
    | some dd =>
      rw [hp] at h
      dsimp only at h ⊢
      cases hta : parseDates ta with
      | error e => rw [hta] at h; exact absurd h (by simp)
      | ok ds0 =>
        rw [hta] at h
        rw [ih hta]
        exact h

theorem map_pyStrip_applyFirst {u : List Char} (hu : allWs u) (L : List (List Char)) :
    (applyFirst (u ++ ·) L).map pyStrip = L.map pyStrip := by
  cases L with
  | nil => rfl
  | cons x L2 => simp [applyFirst, pyStrip_append_left hu]

theorem map_pyStrip_applyLast {v : List Char} (hv : allWs v) (L : List (List Char)) :
    (applyLast (· ++ v) L).map pyStrip = L.map pyStrip := by
  induction L with
  | nil => rfl
  | cons x L2 ih =>
    cases L2 with
    | nil => simp [applyLast, pyStrip_append_right hv]
    | cons y L3 =>
      simp only [applyLast, List.map_cons] at ih ⊢
      rw [ih]

/-- Stripping the date segment before comma-splitting does not change the
per-token stripped results. -/
theorem tokensOf_eq_raw (z : List Char) :
    (splitComma (pyStrip z)).map pyStrip = (splitComma z).map pyStrip := by
  obtain ⟨u, v, hdec, hu, hv⟩ := pyStrip_decomp z
  conv_rhs => rw [hdec]
  rw [splitComma_append_front _ (allWs_no_comma hu),
    splitComma_append_back _ (allWs_no_comma hv),
    map_pyStrip_applyFirst hu, map_pyStrip_applyLast hv]

theorem applyAt_ne_nil {f : List Char → List Char} {i : Nat} {ts : List (List Char)}
    (h : ts ≠ []) : applyAt f i ts ≠ [] := by
  cases ts with
  | nil => exact absurd rfl h
  | cons t ts2 => cases i <;> simp [applyAt]

theorem applyAt_no_comma {w : List Char} (hw : ',' ∉ w) {ts : List (List Char)}
    (h : ∀ t ∈ ts, ',' ∉ t) (i : Nat) :
    ∀ t ∈ applyAt (· ++ annot w) i ts, ',' ∉ t := by
  induction ts generalizing i with
  | nil => intro t ht; simp [applyAt] at ht
  | cons t0 ts ih =>
    intro t ht
    cases i with
    | zero =>
      simp only [applyAt] at ht
      rcases List.mem_cons.mp ht with rfl | hm
      · intro hmem
        rcases List.mem_append.mp hmem with h1 | h1
        · exact h t0 (by simp) h1
        · simp only [annot, List.mem_cons, List.mem_append, List.mem_singleton] at h1
          rcases h1 with h2 | h2 | h2
          · exact absurd h2 (by decide)
          · exact hw h2
          · exact absurd h2 (by decide)
      · exact h t (by simp [hm])
    | succ j =>
      simp only [applyAt] at ht
      rcases List.mem_cons.mp ht with rfl | hm
      · exact h t (by simp)
      · exact ih (fun x hx => h x (by simp [hx])) j t hm

theorem applyAt_forall₂ {w : List Char} (hw : ')' ∉ w) :
    ∀ (i : Nat) (ts : List (List Char)),
      (∀ t ∈ ts, ∃ d, parseDMY (cleanToken (pyStrip t)) = some d) →
      List.Forall₂ (fun t t' => cleanToken t = cleanToken t')
        (ts.map pyStrip) ((applyAt (· ++ annot w) i ts).map pyStrip) := by
  intro i ts
  induction ts generalizing i with
  | nil =>
    intro _
    simp only [applyAt, List.map_nil]
    exact List.Forall₂.nil
  | cons t ts ih =>
    intro hall
    cases i with
    | zero =>
      obtain ⟨d, hd⟩ := hall t (by simp)
      simp only [applyAt, List.map_cons]
      exact List.Forall₂.cons (cleanToken_annot hw hd).symm
        (List.forall₂_same.mpr (fun x _ => rfl))
    | succ j =>
      simp only [applyAt, List.map_cons]
      exact List.Forall₂.cons rfl (ih j (fun x hx => hall x (by simp [hx])))

/-- C8 (amended): for every request string on which parsing succeeds,
appending a trailing parenthesized annotation (whose body contains no `)`
and no `,`) to any date token leaves the parse result and the evaluation
result unchanged. -/
theorem claim_C8_amended (s : String) (i : Nat) (w : List Char)
    (hw1 : ')' ∉ w) (hw2 : ',' ∉ w)
    (r : CustomerType × List Date) (hok : parse_input s = .ok r) :
    parse_input (annotateAt s i w) = .ok r ∧
      find_cheapest_hotel (annotateAt s i w) = find_cheapest_hotel s := by
  unfold parse_input at hok
  cases hsp : splitColonOnce s.toList with
  | none => rw [hsp] at hok; exact absurd hok (by simp)
  | some ab =>
    obtain ⟨a, b⟩ := ab
    rw [hsp] at hok
    dsimp only at hok
    cases hct : parseCustomerType (pyStrip a) with
    | none => rw [hct] at hok; exact absurd hok (by simp)
    | some ct =>
      rw [hct] at hok
      dsimp only at hok
      cases hpd : parseDates ((splitComma (pyStrip b)).map pyStrip) with
      | error e => rw [hpd] at hok; exact absurd hok (by simp)
      | ok ds =>
        rw [hpd] at hok
        dsimp only at hok
        by_cases hds : ds = []
        · rw [if_pos hds] at hok; exact absurd hok (by simp)
        rw [if_neg hds] at hok
        simp only [Except.ok.injEq] at hok
        rw [tokensOf_eq_raw b] at hpd
        have hna : ':' ∉ a := (splitColonOnce_sound hsp).2
        have hannot : annotateAt s i w = String.mk
            (a ++ ':' :: joinComma (applyAt (· ++ annot w) i (splitComma b))) := by
          unfold annotateAt
          rw [hsp]
        have hnocomma : ∀ t ∈ applyAt (· ++ annot w) i (splitComma b), ',' ∉ t :=
          applyAt_no_comma hw2 (splitComma_tokens_no_comma b) i
        have hsj : splitComma (joinComma (applyAt (· ++ annot w) i (splitComma b)))
            = applyAt (· ++ annot w) i (splitComma b) :=
          splitComma_joinComma (applyAt_ne_nil (splitComma_ne_nil b)) hnocomma
        have hmem : ∀ t ∈ splitComma b, ∃ d, parseDMY (cleanToken (pyStrip t)) = some d := by
          intro t ht
          exact parseDates_ok_mem hpd (pyStrip t) (List.mem_map_of_mem pyStrip ht)
        have hparse2 : parseDates
            ((applyAt (· ++ annot w) i (splitComma b)).map pyStrip) = .ok ds :=
          parseDates_congr (applyAt_forall₂ hw1 i (splitComma b) hmem) hpd
        have hparse_s : parse_input s = .ok r := by
          unfold parse_input
          rw [hsp]
          dsimp only
          rw [hct]
          dsimp only
          rw [tokensOf_eq_raw b, hpd]
          dsimp only
          rw [if_neg hds, hok]
        have hparse_t : parse_input (annotateAt s i w) = .ok r := by
          rw [hannot]
          unfold parse_input
          rw [show (String.mk (a ++ ':' ::
              joinComma (applyAt (· ++ annot w) i (splitComma b)))).toList
              = a ++ ':' :: joinComma (applyAt (· ++ annot w) i (splitComma b)) from rfl]
          rw [splitColonOnce_of_append _ hna]
          dsimp only
          rw [hct]
          dsimp only
          rw [tokensOf_eq_raw, hsj, hparse2]
          dsimp only
          rw [if_neg hds, hok]
        refine ⟨hparse_t, ?_⟩
        unfold find_cheapest_hotel
        rw [hparse_s, hparse_t]

theorem claim_C8_witness :
    parse_input (annotateAt "Regular: 16Mar2009" 0 ("mon".toList))
        = .ok (CustomerType.REGULAR, [⟨2009, 3, 16⟩]) ∧
      find_cheapest_hotel (annotateAt "Regular: 16Mar2009" 0 ("mon".toList))
        = find_cheapest_hotel "Regular: 16Mar2009" :=
  claim_C8_amended "Regular: 16Mar2009" 0 "mon".toList (by decide) (by decide)
    (CustomerType.REGULAR, [⟨2009, 3, 16⟩]) rfl

/-- C8 (counterexample to the claim as stated): on a request whose date
token does not parse, appending a day-of-week annotation can change the
parse result — here it turns a failure into a success, because the
appended `)` completes the previously unmatched `(` for the regex. -/
theorem claim_C8_counterexample :
    annotateAt "Regular: 16Mar2009(" 0 ("mon".toList) = "Regular: 16Mar2009((mon)" ∧
      parse_input "Regular: 16Mar2009("
        = .error (ParseError.invalidDateFormat "16Mar2009(") ∧
      parse_input "Regular: 16Mar2009((mon)"
        = .ok (CustomerType.REGULAR, [⟨2009, 3, 16⟩]) :=
  ⟨rfl, rfl, rfl⟩

end HotelRes
